import Mathlib

/-!
Verification development for the job-description extraction server
(`src/server/index.js`).  The JavaScript code is shallowly embedded:
strings are Lean `String`s (viewed as `List Char`), the regular
expressions the code builds are translated into executable character-level
scanners with the exact semantics of the source patterns (word boundaries,
lookarounds, greedy repetition with backtracking where it matters), and
JavaScript `Set` insertion order is modelled by insertion into a
duplicate-free list.  JavaScript's `\w`, `\s` and case-insensitive flag
are modelled at the ASCII level (plus NBSP for `\s`), which covers every
character class the source patterns mention.
-/

namespace JD

/-- JavaScript `\w`: ASCII letters, digits and underscore. -/
def isWordChar (c : Char) : Bool :=
  ('a' ≤ c && c ≤ 'z') || ('A' ≤ c && c ≤ 'Z') || ('0' ≤ c && c ≤ '9') || c = '_'

/-- JavaScript `\s` (and the characters `String.prototype.trim` strips),
modelled on its ASCII members plus the no-break space. -/
def isJsSpace (c : Char) : Bool :=
  c = ' ' || c = '\t' || c = '\n' || c = '\x0d' ||
  c = '\x0b' || c = '\x0c' || c = '\xa0'

/-- ASCII lower-casing, the relevant part of the `i` regex flag. -/
def asciiLower (c : Char) : Char :=
  if 'A' ≤ c && c ≤ 'Z' then Char.ofNat (c.toNat + 32) else c

def lowerList (l : List Char) : List Char := l.map asciiLower

/-- Is the character at index `i` a word character (out of range: no)? -/
def isWordAt (l : List Char) (i : Nat) : Bool :=
  match l.get? i with
  | some c => isWordChar c
  | none => false

/-- Regex `\b` at position `i`: word-char status changes between the
character before `i` and the character at `i` (out of range counts as
non-word). -/
def boundaryAt (l : List Char) (i : Nat) : Bool :=
  (if i = 0 then false else isWordAt l (i - 1)) != isWordAt l i

/-- The literal pattern `pat` matches at position `i` of `l`,
case-insensitively (ASCII folding on both sides). -/
def matchesAtCI (l : List Char) (i : Nat) : List Char → Bool
  | [] => true
  | c :: cs =>
    match l.get? i with
    | some d => asciiLower d = asciiLower c && matchesAtCI l (i + 1) cs
    | none => false

/-- `∃ i < n, f i`, as an executable scan over the start positions a regex
engine would try. -/
def existsIdx (n : Nat) (f : Nat → Bool) : Bool :=
  (List.range n).any f

/-- `new RegExp('\\b' + escapeRegex(pat) + '\\b', 'i').test(t)`: the
escaped label is a literal, so this is a word-bounded case-insensitive
literal search. -/
def wordMatchCI (pat : String) (t : String) : Bool :=
  existsIdx (t.data.length + 1) fun i =>
    boundaryAt t.data i && matchesAtCI t.data i pat.data &&
      boundaryAt t.data (i + pat.data.length)

/-- One word-bounded case-insensitive alternative: used for the variant
lists of the React/Node overrides. -/
def boundedAltCI (l : List Char) (i : Nat) (pat : List Char) : Bool :=
  boundaryAt l i && matchesAtCI l i pat && boundaryAt l (i + pat.length)

/-- Override pattern `\bReact(?:JS|\.js)?\b` (flag `i`). -/
def reactMatch (t : String) : Bool :=
  existsIdx (t.data.length + 1) fun i =>
    boundedAltCI t.data i "react".data ||
    boundedAltCI t.data i "reactjs".data ||
    boundedAltCI t.data i "react.js".data

/-- Override pattern `\bNode(?:\.js|JS)?\b` (flag `i`). -/
def nodeMatch (t : String) : Bool :=
  existsIdx (t.data.length + 1) fun i =>
    boundedAltCI t.data i "node".data ||
    boundedAltCI t.data i "node.js".data ||
    boundedAltCI t.data i "nodejs".data

/-- The lookbehind `(?<!P)` tail: `P` (a literal) ends exactly at `i`. -/
def precededByCI (l : List Char) (i : Nat) (pat : List Char) : Bool :=
  decide (pat.length ≤ i) && matchesAtCI l (i - pat.length) pat

/-- The lookbehind alternative `enable\s` of the JavaScript override:
`enable` at `i - 7` followed by one whitespace character at `i - 1`. -/
def enablePrecedes (l : List Char) (i : Nat) : Bool :=
  decide (7 ≤ i) && matchesAtCI l (i - 7) "enable".data &&
    (match l.get? (i - 1) with
     | some c => isJsSpace c
     | none => false)

/-- First alternative of the JavaScript override:
`(?<!(text|application)\/|enable\s)\bJavaScript\b` (flag `i`). -/
def jsLiteralAlt (t : String) : Bool :=
  existsIdx (t.data.length + 1) fun i =>
    boundaryAt t.data i && matchesAtCI t.data i "javascript".data &&
    boundaryAt t.data (i + 10) &&
    !precededByCI t.data i "text/".data &&
    !precededByCI t.data i "application/".data &&
    !enablePrecedes t.data i

/-- A character of the left lookbehind class `[\w./'"-]` of the bare-JS
alternative. -/
def jsLeftClass (c : Char) : Bool :=
  isWordChar c || c = '.' || c = '/' || c = '\'' || c = '"' || c = '-'

/-- Second alternative of the JavaScript override:
`(?<![\w./'"-])JS(?![\w])` (flag `i`). -/
def jsBareAlt (t : String) : Bool :=
  existsIdx (t.data.length + 1) fun i =>
    (if i = 0 then true
     else match t.data.get? (i - 1) with
          | some c => !jsLeftClass c
          | none => true) &&
    matchesAtCI t.data i "js".data &&
    !isWordAt t.data (i + 2)

/-- The whole JavaScript override pattern. -/
def javaScriptMatch (t : String) : Bool :=
  jsLiteralAlt t || jsBareAlt t

/-- Override pattern `\bTypeScript\b|(?<!\w)TS(?!\w)` (flag `i`). -/
def typeScriptMatch (t : String) : Bool :=
  wordMatchCI "TypeScript" t ||
  existsIdx (t.data.length + 1) fun i =>
    (if i = 0 then true else !isWordAt t.data (i - 1)) &&
    matchesAtCI t.data i "ts".data &&
    !isWordAt t.data (i + 2)

/-- Override pattern `\bAWS\b|\bAmazon Web Services\b` (flag `i`). -/
def awsMatch (t : String) : Bool :=
  wordMatchCI "AWS" t || wordMatchCI "Amazon Web Services" t

/-- Label test `/^React$/i`. -/
def reactLabelTest (s : String) : Bool :=
  decide (lowerList s.data = "react".data)

/-- Label test `/^Node(?:\\.js)?$/i`.  In the source this is a regex
literal, so `\\` matches one literal backslash and `.` any character other
than a line terminator: it accepts `Node` and `Node\〈c〉js`, not
`Node.js`. -/
def nodeLabelTest (s : String) : Bool :=
  decide (lowerList s.data = "node".data) ||
  (decide (s.data.length = 8) &&
   decide (lowerList (s.data.take 4) = "node".data) &&
   decide (s.data.get? 4 = some '\\') &&
   (match s.data.get? 5 with
    | some c => !(c = '\n' || c = '\x0d' || c = Char.ofNat 0x2028 || c = Char.ofNat 0x2029)
    | none => false) &&
   decide (lowerList (s.data.drop 6) = "js".data))

/-- Label test `/^JavaScript$/i`. -/
def jsLabelTest (s : String) : Bool :=
  decide (lowerList s.data = "javascript".data)

/-- Label test `/^TypeScript$/i`. -/
def tsLabelTest (s : String) : Bool :=
  decide (lowerList s.data = "typescript".data)

/-- Label test `/^AWS$/i`. -/
def awsLabelTest (s : String) : Bool :=
  decide (lowerList s.data = "aws".data)

/-- `String.prototype.trim`, written so that the trimmed string is
manifestly a contiguous slice: drop the leading whitespace run, then keep
the prefix up to the last non-whitespace character. -/
def rtrimLen : List Char → Nat
  | [] => 0
  | c :: cs =>
    if isJsSpace c = true ∧ rtrimLen cs = 0 then 0 else rtrimLen cs + 1

def trimRight (l : List Char) : List Char := l.take (rtrimLen l)

def jsTrimL (l : List Char) : List Char := trimRight (l.dropWhile isJsSpace)

def jsTrim (s : String) : String := String.mk (jsTrimL s.data)

/-- The per-label pattern selection of `collectKeywords`: the chain of
`else if` override tests, falling back to the generic word-bounded
pattern built from the escaped label. -/
def labelMatches (normalized : String) (raw : String) : Bool :=
  if reactLabelTest normalized then reactMatch raw
  else if nodeLabelTest normalized then nodeMatch raw
  else if jsLabelTest normalized then javaScriptMatch raw
  else if tsLabelTest normalized then typeScriptMatch raw
  else if awsLabelTest normalized then awsMatch raw
  else wordMatchCI normalized raw

/-- A JavaScript array element as `collectKeywords` sees it: a string or
some other value. -/
inductive JsVal where
  | str (s : String)
  | nonStr
  deriving DecidableEq

def JsVal.getStr : JsVal → Option String
  | .str s => some s
  | .nonStr => none

/-- Insertion into a JavaScript `Set`, viewed as a duplicate-free list in
insertion order: adding an element already present keeps its position. -/
def insertSet (s : List String) (x : String) : List String :=
  if x ∈ s then s else s ++ [x]

def addAll (s : List String) (xs : List String) : List String :=
  xs.foldl insertSet s

/-- First-occurrence de-duplication: what `Array.from(new Set(xs))`
returns. -/
def dedupFirst : List String → List String
  | [] => []
  | x :: xs => x :: (dedupFirst xs).filter (fun y => !decide (y = x))

/-- The text `collectKeywords` scans:
`` `${pageText || $('body').text()}\n${scriptText}` ``. -/
def rawTextOf (pageText bodyText scriptText : String) : String :=
  (if pageText = "" then bodyText else pageText) ++ "\n" ++ scriptText

/-- `collectKeywords($, pageText)` from `src/server/index.js`:
meta `keywords` entries (comma-split, trimmed, non-empty) and
`article:tag` contents go into the set first, then each lexicon label is
tried against the aggregated text with its (possibly overridden) pattern
and, on a match, the original label is added. -/
def collectKeywords (metaKeywords : Option String)
    (articleTags : List (Option String)) (techStacks : List JsVal)
    (pageText bodyText scriptText : String) : List String :=
  let k1 :=
    match metaKeywords with
    | some mk =>
      addAll [] (((mk.splitOn ",").map jsTrim).filter (fun s => !decide (s = "")))
    | none => []
  let k2 := articleTags.foldl
    (fun s tag =>
      match tag with
      | some tg => if tg = "" then s else insertSet s (jsTrim tg)
      | none => s) k1
  let rawText := rawTextOf pageText bodyText scriptText
  techStacks.foldl
    (fun s v =>
      match v with
      | JsVal.str label =>
        if label = "" then s
        else
          let normalized := jsTrim label
          if normalized = "" then s
          else if labelMatches normalized rawText then insertSet s label
          else s
      | JsVal.nonStr => s) k2

/-! ### Location classifier -/

/-- `/\bremote\b/i.test(t)`. -/
def remoteWordMatch (t : String) : Bool :=
  wordMatchCI "remote" t

/-- One character of the optional separator class `[-\s]`. -/
def sepCharAt (l : List Char) (i : Nat) : Bool :=
  match l.get? i with
  | some c => c = '-' || isJsSpace c
  | none => false

/-- `/\b(?:no|not|non)[-\s]?remote\b/i.test(t)`: a word-boundary, one of
the negators, an optional hyphen/whitespace, then `remote` and a closing
word boundary. -/
def negativeRemoteMatch (t : String) : Bool :=
  existsIdx (t.data.length + 1) fun i =>
    boundaryAt t.data i &&
    (["no", "not", "non"].any fun w =>
      matchesAtCI t.data i w.data &&
      (let j := i + w.length
       (matchesAtCI t.data j "remote".data && boundaryAt t.data (j + 6)) ||
       (sepCharAt t.data j && matchesAtCI t.data (j + 1) "remote".data &&
         boundaryAt t.data (j + 7))))

/-- `/on[-\s]?site|onsite|in[-\s]?office|hybrid/i.test(t)` — the
"location-ish" descriptor test of `extractLocationHints`. -/
def descriptorTest (t : String) : Bool :=
  existsIdx (t.data.length + 1) fun i =>
    (matchesAtCI t.data i "on".data &&
      (matchesAtCI t.data (i + 2) "site".data ||
       (sepCharAt t.data (i + 2) && matchesAtCI t.data (i + 3) "site".data))) ||
    matchesAtCI t.data i "onsite".data ||
    (matchesAtCI t.data i "in".data &&
      (matchesAtCI t.data (i + 2) "office".data ||
       (sepCharAt t.data (i + 2) && matchesAtCI t.data (i + 3) "office".data))) ||
    matchesAtCI t.data i "hybrid".data

/-- `[A-Z]` (these two patterns carry no `i` flag). -/
def upperAt (l : List Char) (i : Nat) : Bool :=
  match l.get? i with
  | some c => 'A' ≤ c && c ≤ 'Z'
  | none => false

/-- A character of the class `[a-zA-Z.\s]`. -/
def cityClassChar (c : Char) : Bool :=
  ('a' ≤ c && c ≤ 'z') || ('A' ≤ c && c ≤ 'Z') || c = '.' || isJsSpace c

/-- Length of the maximal run of characters satisfying `p` from index `i`. -/
def runLenFrom (l : List Char) (i : Nat) (p : Char → Bool) : Nat :=
  ((l.drop i).takeWhile p).length

/-- `/\b[A-Z][a-zA-Z.\s]+,\s*[A-Z]{2}\b/` at start position `i`: returns
the length of the match.  The `+` must stop exactly at the first
non-class character (which has to be the comma) and `\s*` exactly before
the first non-whitespace character, so no backtracking arises and the
match length is unique. -/
def cityStateAt (l : List Char) (i : Nat) : Option Nat :=
  if boundaryAt l i && upperAt l i then
    let r := runLenFrom l (i + 1) cityClassChar
    if decide (1 ≤ r) && decide (l.get? (i + 1 + r) = some ',') then
      let w := runLenFrom l (i + 2 + r) isJsSpace
      if upperAt l (i + 2 + r + w) && upperAt l (i + 3 + r + w) &&
          boundaryAt l (i + 4 + r + w) then
        some (4 + r + w)
      else none
    else none
  else none

/-- Greedy search for the largest `k` with `1 ≤ k ≤ r` such that
`boundaryAt l (base + k)` holds — the backtracking of a trailing
`...+\b`. -/
def greedyBoundary (l : List Char) (base : Nat) : Nat → Option Nat
  | 0 => none
  | k + 1 =>
    if boundaryAt l (base + k + 1) then some (k + 1)
    else greedyBoundary l base k

/-- `/\b[A-Z]{2},\s*[A-Z][a-zA-Z.\s]+\b/` at start position `i`: returns
the length of the match (the trailing `+` is greedy, backing off until
the word boundary holds). -/
def stateCityAt (l : List Char) (i : Nat) : Option Nat :=
  if boundaryAt l i && upperAt l i && upperAt l (i + 1) &&
      decide (l.get? (i + 2) = some ',') then
    let w := runLenFrom l (i + 3) isJsSpace
    if upperAt l (i + 3 + w) then
      let r := runLenFrom l (i + 4 + w) cityClassChar
      match greedyBoundary l (i + 4 + w) r with
      | some k => some (4 + w + k)
      | none => none
    else none
  else none

/-- `text.match(re)` for a whole-match regex: the leftmost start position
that matches, with the match length there. -/
def firstMatch (l : List Char) (matchAt : List Char → Nat → Option Nat) :
    Option (Nat × Nat) :=
  (List.range (l.length + 1)).findSome? fun i =>
    (matchAt l i).map fun m => (i, m)

/-- `text.match(re)?.[0]` as a string slice of `t`. -/
def jsMatchFirst (matchAt : List Char → Nat → Option Nat) (t : String) :
    Option String :=
  (firstMatch t.data matchAt).map fun im =>
    String.mk ((t.data.drop im.1).take im.2)

/-- Processing of one `p, span, li, div` node by `extractLocationHints`:
trim its text, skip it outside the 4–100 character window, then add the
descriptor hint and the first city/state and state/city matches. -/
def hintStep (s : List String) (nodeText : String) : List String :=
  let text := jsTrim nodeText
  if text = "" || decide (text.length < 4) || decide (100 < text.length) then s
  else
    let s1 := if descriptorTest text then insertSet s text else s
    if text.data.contains ',' then
      let s2 :=
        match jsMatchFirst cityStateAt text with
        | some m => insertSet s1 (jsTrim m)
        | none => s1
      match jsMatchFirst stateCityAt text with
      | some m => insertSet s2 (jsTrim m)
      | none => s2
    else s1

/-- `extractLocationHints($)` over the document-order list of node
texts. -/
def extractLocationHints (nodes : List String) : List String :=
  nodes.foldl hintStep []

/-- The location field of the `/api/job` handler: `Remote` when the
positive signal fires and the negative one does not, otherwise
`Not Remote` with the collected hints appended. -/
def locationOf (textForRemoteScan : String) (nodes : List String) : String :=
  if remoteWordMatch textForRemoteScan && !negativeRemoteMatch textForRemoteScan then
    "Remote"
  else
    let hints := extractLocationHints nodes
    if hints = [] then "Not Remote"
    else "Not Remote" ++ "\n" ++ String.intercalate " / " hints

/-! ### Field extraction (title) -/

/-- `extractText`: `node ? node.trim() : ''` (absent values come in as
`none`). -/
def extractText (node : Option String) : String :=
  match node with
  | some s => jsTrim s
  | none => ""

/-- The predicate of `pickFirst`: `!!value && value.length > 0` — truthy
and of positive length, tested on the untrimmed value. -/
def pickPred : Option String → Bool
  | some s => decide (0 < s.length)
  | none => false

/-- `pickFirst(...values)`: the first value satisfying `pickPred`. -/
def pickFirst (values : List (Option String)) : Option String :=
  (values.find? pickPred).join

/-- JavaScript `a || b` on strings. -/
def jsOr (a b : String) : String :=
  if a = "" then b else a

/-- The title computation of the `/api/job` handler:
`extractText(pickFirst(h1Title, ogTitle, pageTitle)) || 'Untitled role'`. -/
def titleOf (h1Title : String) (ogTitle : Option String)
    (pageTitle : String) : String :=
  jsOr (extractText (pickFirst [some h1Title, ogTitle, some pageTitle]))
    "Untitled role"

/-! ### Lexicon store -/

/-- The built-in default lexicon. -/
def DEFAULT_TECH_STACKS : List String :=
  ["React", "Next.js", "TypeScript", "JavaScript", "Node.js", "Angular",
   "Vue.js", "Java", "Spring Boot", "Python", "Django", "Flask"]

/-- The outcome of `fs.readFileSync` + `JSON.parse` on the DB file:
absent/unparseable, a JSON array, or some other JSON value. -/
inductive ParsedJson where
  | arr (xs : List JsVal)
  | nonArray
  deriving DecidableEq

/-- `readTechStacksFromFile`: a parsed array — of any content, including
the empty one — is returned as-is; anything else falls back to the
defaults. -/
def readTechStacksFromFile (readResult : Option ParsedJson) : List JsVal :=
  match readResult with
  | some (.arr xs) => xs
  | some .nonArray => DEFAULT_TECH_STACKS.map JsVal.str
  | none => DEFAULT_TECH_STACKS.map JsVal.str

/-- `writeTechStacksToFile`: the `try/catch` swallows a write failure and
only logs it; the returned flag records whether the error was logged. -/
def writeTechStacksToFile (fsOk : Bool) : Bool :=
  !fsOk

/-- The cleaning step of `PUT /api/tech-stacks`: keep string entries,
trim them, drop empties, de-duplicate preserving first occurrence. -/
def cleanStacks (incoming : List JsVal) : List String :=
  dedupFirst
    ((incoming.map fun e =>
        match e with
        | .str s => jsTrim s
        | .nonStr => "").filter fun s => !decide (s = ""))

/-- Responses of the tech-stacks endpoints. -/
inductive PutResp where
  | badRequest (msg : String)
  | ok (techStacks : List String)
  deriving DecidableEq

/-- `PUT /api/tech-stacks`: body validation, cleaning, in-memory update,
best-effort persistence (whose failure is only logged), success
response.  Result: (new in-memory lexicon, response, logged-error
flag). -/
def putTechStacks (body : Option (List JsVal)) (st : List String)
    (fsOk : Bool) : List String × PutResp × Bool :=
  match body with
  | none =>
    (st, .badRequest "Expected body: \x7b \"techStacks\": string[] \x7d", false)
  | some incoming =>
    let cleaned := cleanStacks incoming
    if cleaned = [] then
      (st, .badRequest "At least one tech stack must be provided.", false)
    else
      (cleaned, .ok cleaned, writeTechStacksToFile fsOk)

/-- `GET /api/tech-stacks`: returns the in-memory lexicon. -/
def getTechStacks (st : List String) : List String :=
  st

/-! ### Derived notions used by the statements -/

/-- `p` occurs at position `i` of `l` (exact, case-sensitive). -/
def occursAt (l : List Char) (i : Nat) (p : List Char) : Bool :=
  decide ((l.drop i).take p.length = p)

/-- `small` is a contiguous substring of `big`. -/
def substrB (small big : String) : Bool :=
  existsIdx (big.data.length + 1) fun i => occursAt big.data i small.data

/-- The per-label filter of the lexicon scan in `collectKeywords`: the
label is a non-empty string, trims to something non-empty, and its
pattern matches the aggregated text. -/
def stackKeep (raw : String) (s : String) : Bool :=
  !decide (s = "") && !decide (jsTrim s = "") && labelMatches (jsTrim s) raw

/-- The hints a single node contributes, in insertion order: at most one
descriptor hint, at most one City-ST hint, at most one ST-City hint. -/
def nodeHints (nodeText : String) : List String :=
  let text := jsTrim nodeText
  if text = "" || decide (text.length < 4) || decide (100 < text.length) then []
  else
    (if descriptorTest text then [text] else []) ++
    (if text.data.contains ',' then
      ((jsMatchFirst cityStateAt text).map jsTrim).toList ++
      ((jsMatchFirst stateCityAt text).map jsTrim).toList
     else [])

/-- A case-insensitive whole-word occurrence of `remote`, stated as the
spec states it. -/
def WholeWordRemote (t : String) : Prop :=
  ∃ i, boundaryAt t.data i = true ∧ matchesAtCI t.data i "remote".data = true ∧
    boundaryAt t.data (i + 6) = true

/-- An occurrence of the negation pattern: `no`/`not`/`non`, an optional
hyphen or whitespace, then `remote`, inside word boundaries. -/
def NegatedRemote (t : String) : Prop :=
  ∃ i w, w ∈ ["no", "not", "non"] ∧ boundaryAt t.data i = true ∧
    matchesAtCI t.data i w.data = true ∧
    ((matchesAtCI t.data (i + w.length) "remote".data = true ∧
        boundaryAt t.data (i + w.length + 6) = true) ∨
      (sepCharAt t.data (i + w.length) = true ∧
        matchesAtCI t.data (i + w.length + 1) "remote".data = true ∧
        boundaryAt t.data (i + w.length + 7) = true))

/-- A standalone `JS` token as the bare-JS alternative accepts it: not
preceded by a word character, dot, slash, quote or hyphen, and not
followed by a word character. -/
def BareJsToken (t : String) : Prop :=
  ∃ i, matchesAtCI t.data i "js".data = true ∧
    (i = 0 ∨ ∀ c, t.data.get? (i - 1) = some c → jsLeftClass c = false) ∧
    (∀ c, t.data.get? (i + 2) = some c → isWordChar c = false)

/-! ### Supporting lemmas: scans -/

theorem existsIdx_iff {n : Nat} {f : Nat → Bool} :
    existsIdx n f = true ↔ ∃ i, i < n ∧ f i = true := by
  simp [existsIdx, List.any_eq_true, List.mem_range]

theorem matchesAtCI_bound {l : List Char} {i : Nat} {c : Char} {cs : List Char}
    (h : matchesAtCI l i (c :: cs) = true) : i < l.length := by
  by_contra hlt
  rw [matchesAtCI, List.get?_eq_none.2 (Nat.le_of_not_lt hlt)] at h
  exact Bool.false_ne_true h

/-! ### Supporting lemmas: insertion-ordered sets -/

theorem mem_insertSet {s : List String} {x y : String} :
    y ∈ insertSet s x ↔ y ∈ s ∨ y = x := by
  unfold insertSet
  split
  · constructor
    · exact Or.inl
    · rintro (h | rfl)
      · exact h
      · assumption
  · simp [List.mem_append]

theorem nodup_insertSet {s : List String} (x : String) (h : s.Nodup) :
    (insertSet s x).Nodup := by
  unfold insertSet
  split
  · exact h
  · simp_all [List.nodup_append]

theorem addAll_cons (s : List String) (x : String) (xs : List String) :
    addAll s (x :: xs) = addAll (insertSet s x) xs := rfl

theorem addAll_append (s xs ys : List String) :
    addAll s (xs ++ ys) = addAll (addAll s xs) ys :=
  List.foldl_append _ _ _ _

theorem addAll_eq (xs : List String) :
    ∀ s, addAll s xs = s ++ (dedupFirst xs).filter (fun y => !decide (y ∈ s)) := by
  induction xs with
  | nil => intro s; simp [addAll, dedupFirst]
  | cons x xs ih =>
    intro s
    rw [addAll_cons, ih]
    by_cases hx : x ∈ s
    · have hins : insertSet s x = s := by simp [insertSet, hx]
      rw [hins, dedupFirst]
      rw [List.filter_cons_of_neg (by simp [hx]), List.filter_filter]
      congr 1
      refine List.filter_congr fun y _ => ?_
      by_cases hyx : y = x
      · subst hyx; simp [hx]
      · simp [hyx]
    · have hins : insertSet s x = s ++ [x] := by simp [insertSet, hx]
      rw [hins, dedupFirst]
      rw [List.filter_cons_of_pos (by simp [hx]), List.filter_filter]
      rw [List.append_assoc, List.singleton_append]
      congr 2
      refine List.filter_congr fun y _ => ?_
      by_cases hyx : y = x
      · subst hyx; simp [hx]
      · simp [hyx, List.mem_append]

theorem mem_dedupFirst {y : String} {xs : List String} :
    y ∈ dedupFirst xs ↔ y ∈ xs := by
  induction xs with
  | nil => simp [dedupFirst]
  | cons x xs ih =>
    rw [dedupFirst]
    by_cases hyx : y = x
    · subst hyx; simp
    · simp [List.mem_filter, hyx, ih]

theorem nodup_dedupFirst (xs : List String) : (dedupFirst xs).Nodup := by
  induction xs with
  | nil => simp [dedupFirst]
  | cons x xs ih =>
    rw [dedupFirst, List.nodup_cons]
    constructor
    · intro hmem
      have := (List.mem_filter.1 hmem).2
      simp at this
    · exact ih.filter _

theorem dedupFirst_filter (p : String → Bool) (xs : List String) :
    dedupFirst (xs.filter p) = (dedupFirst xs).filter p := by
  induction xs with
  | nil => simp [dedupFirst]
  | cons x xs ih =>
    by_cases hp : p x
    · rw [List.filter_cons_of_pos hp, dedupFirst, dedupFirst,
        List.filter_cons_of_pos hp, ih, List.filter_filter, List.filter_filter]
      congr 1
      exact List.filter_congr fun y _ => by rw [Bool.and_comm]
    · rw [List.filter_cons_of_neg hp, dedupFirst,
        List.filter_cons_of_neg hp, ih, List.filter_filter]
      refine List.filter_congr fun y _ => ?_
      by_cases hyx : y = x
      · subst hyx; simp [hp]
      · simp [hyx]

theorem dedupFirst_eq_self {xs : List String} (h : xs.Nodup) :
    dedupFirst xs = xs := by
  induction xs with
  | nil => rfl
  | cons x xs ih =>
    rw [List.nodup_cons] at h
    rw [dedupFirst, ih h.2]
    congr 1
    refine List.filter_eq_self.2 fun y hy => ?_
    simp only [Bool.not_eq_true', decide_eq_false_iff_not]
    exact fun hyx => h.1 (hyx ▸ hy)

theorem addAll_nil_eq (xs : List String) : addAll [] xs = dedupFirst xs := by
  rw [addAll_eq]
  simp

/-! ### Supporting lemmas: the lexicon scan of `collectKeywords` -/

theorem stacksFold_eq (raw : String) (L : List JsVal) :
    ∀ s : List String,
      L.foldl
        (fun s v =>
          match v with
          | JsVal.str label =>
            if label = "" then s
            else
              let normalized := jsTrim label
              if normalized = "" then s
              else if labelMatches normalized raw then insertSet s label
              else s
          | JsVal.nonStr => s) s
      = addAll s ((L.filterMap JsVal.getStr).filter (stackKeep raw)) := by
  induction L with
  | nil => intro s; rfl
  | cons v L ih =>
    intro s
    cases v with
    | nonStr =>
      rw [List.foldl_cons, List.filterMap_cons]
      exact ih s
    | str label =>
      rw [List.foldl_cons, List.filterMap_cons]
      show _ = addAll s ((label :: L.filterMap JsVal.getStr).filter (stackKeep raw))
      by_cases h1 : label = ""
      · rw [List.filter_cons_of_neg (by simp [stackKeep, h1])]
        simp only [h1, if_pos rfl]
        simpa using ih s
      · by_cases h2 : jsTrim label = ""
        · rw [List.filter_cons_of_neg (by simp [stackKeep, h1, h2])]
          simp only [if_neg h1, if_pos h2]
          exact ih s
        · by_cases h3 : labelMatches (jsTrim label) raw
          · rw [List.filter_cons_of_pos (by simp [stackKeep, h1, h2, h3]),
              addAll_cons]
            simp only [if_neg h1, if_neg h2, if_pos h3]
            exact ih (insertSet s label)
          · rw [List.filter_cons_of_neg (by simp [stackKeep, h1, h2, h3])]
            simp only [if_neg h1, if_neg h2, if_neg h3]
            exact ih s

theorem collectKeywords_none_eq (L : List JsVal)
    (pageText bodyText scriptText : String) :
    collectKeywords none [] L pageText bodyText scriptText
      = dedupFirst ((L.filterMap JsVal.getStr).filter
          (stackKeep (rawTextOf pageText bodyText scriptText))) := by
  show L.foldl _ [] = _
  rw [stacksFold_eq, addAll_nil_eq]

/-! ### Supporting lemmas: trimming -/

theorem dropWhile_eq_drop (p : Char → Bool) (l : List Char) :
    l.dropWhile p = l.drop ((l.takeWhile p).length) := by
  induction l with
  | nil => rfl
  | cons c cs ih =>
    by_cases hp : p c
    · rw [List.dropWhile_cons_of_pos hp, List.takeWhile_cons_of_pos hp]
      simpa using ih
    · rw [List.dropWhile_cons_of_neg hp, List.takeWhile_cons_of_neg hp]
      rfl

theorem takeWhile_len_le (p : Char → Bool) (l : List Char) :
    (l.takeWhile p).length ≤ l.length := by
  induction l with
  | nil => simp
  | cons c cs ih =>
    by_cases hp : p c
    · rw [List.takeWhile_cons_of_pos hp]
      simpa using ih
    · rw [List.takeWhile_cons_of_neg hp]
      simp

theorem takeWhile_get {p : Char → Bool} {l : List Char} {j : Nat} :
    ∀ c, (l.takeWhile p).get? j = some c → l.get? j = some c ∧ p c = true := by
  induction l generalizing j with
  | nil => intro c h; simp at h
  | cons d ds ih =>
    intro c h
    by_cases hp : p d
    · rw [List.takeWhile_cons_of_pos hp] at h
      cases j with
      | zero =>
        simp at h
        subst h
        exact ⟨rfl, hp⟩
      | succ j => exact ih c h
    · rw [List.takeWhile_cons_of_neg hp] at h
      simp at h

theorem rtrimLen_le (l : List Char) : rtrimLen l ≤ l.length := by
  induction l with
  | nil => simp [rtrimLen]
  | cons c cs ih =>
    rw [rtrimLen]
    split
    · simp
    · simpa using ih

theorem length_trimRight (l : List Char) :
    (trimRight l).length = rtrimLen l := by
  rw [trimRight, List.length_take]
  exact Nat.min_eq_left (rtrimLen_le l)

theorem rtrimLen_ge_of_get {l : List Char} :
    ∀ {j : Nat} {c : Char}, l.get? j = some c → isJsSpace c = false →
      j + 1 ≤ rtrimLen l := by
  induction l with
  | nil => intro j c hg; simp at hg
  | cons d ds ih =>
    intro j c hg hc
    cases j with
    | zero =>
      simp at hg
      subst hg
      rw [rtrimLen, if_neg (by simp [hc])]
      exact Nat.succ_le_succ (Nat.zero_le _)
    | succ j =>
      have hr : j + 1 ≤ rtrimLen ds := ih hg hc
      rw [rtrimLen, if_neg (fun hcond => absurd hcond.2 (by omega))]
      omega

theorem trimRight_get {l : List Char} {j : Nat} {c : Char}
    (h : (trimRight l).get? j = some c) : l.get? j = some c := by
  rw [trimRight] at h
  have hj : j < rtrimLen l := by
    by_contra hge
    have hlen : (l.take (rtrimLen l)).length ≤ j := by
      rw [List.length_take]
      exact le_trans (Nat.min_le_left _ _) (Nat.le_of_not_lt hge)
    rw [List.get?_eq_none.2 hlen] at h
    exact Option.noConfusion h
  rw [List.get?_take hj] at h
  exact h

theorem head_dropWhile {p : Char → Bool} {l : List Char} :
    ∀ {c : Char}, (l.dropWhile p).get? 0 = some c → p c = false := by
  induction l with
  | nil => intro c h; simp at h
  | cons d ds ih =>
    intro c h
    by_cases hp : p d
    · rw [List.dropWhile_cons_of_pos hp] at h
      exact ih h
    · rw [List.dropWhile_cons_of_neg hp] at h
      simp at h
      subst h
      simpa using hp

theorem trimRight_last {l : List Char} (h : rtrimLen l ≠ 0) :
    ∃ c, (trimRight l).get? (rtrimLen l - 1) = some c ∧ isJsSpace c = false := by
  induction l with
  | nil => simp [rtrimLen] at h
  | cons d ds ih =>
    rw [rtrimLen] at h
    split at h
    · exact absurd rfl h
    · rename_i hcond
      by_cases hr : rtrimLen ds = 0
      · have hd : isJsSpace d = false := by
          rcases Bool.eq_false_or_eq_true (isJsSpace d) with h' | h'
          · exact absurd ⟨h', hr⟩ hcond
          · exact h'
        refine ⟨d, ?_, hd⟩
        rw [trimRight, rtrimLen, if_neg hcond, hr]
        rfl
      · obtain ⟨c, hc, hcs⟩ := ih hr
        refine ⟨c, ?_, hcs⟩
        rw [trimRight] at hc
        rw [trimRight, rtrimLen, if_neg hcond]
        have htake : (d :: ds).take (rtrimLen ds + 1) = d :: ds.take (rtrimLen ds) :=
          rfl
        rw [htake]
        simp only [Nat.add_sub_cancel]
        obtain ⟨k, hk⟩ := Nat.exists_eq_succ_of_ne_zero hr
        rw [hk] at hc ⊢
        simpa [Nat.succ_sub_one] using hc

theorem jsTrimL_eq_self {l : List Char}
    (h0 : ∀ c, l.get? 0 = some c → isJsSpace c = false)
    (h1 : ∀ c, l.get? (l.length - 1) = some c → isJsSpace c = false) :
    jsTrimL l = l := by
  cases l with
  | nil => rfl
  | cons d ds =>
    have hd : isJsSpace d = false := h0 d (by simp)
    have hdrop : (d :: ds).dropWhile isJsSpace = d :: ds :=
      List.dropWhile_cons_of_neg (by simp [hd])
    rw [jsTrimL, hdrop]
    have hlast : rtrimLen (d :: ds) = (d :: ds).length := by
      have hlt : (d :: ds).length - 1 < (d :: ds).length := by
        simp
      obtain ⟨c, hc⟩ : ∃ c, (d :: ds).get? ((d :: ds).length - 1) = some c :=
        ⟨_, List.get?_eq_get hlt⟩
      have := rtrimLen_ge_of_get hc (h1 c hc)
      have hle := rtrimLen_le (d :: ds)
      omega
    rw [trimRight, hlast, List.take_length]

theorem jsTrimL_head {l : List Char} {c : Char}
    (h : (jsTrimL l).get? 0 = some c) : isJsSpace c = false := by
  rw [jsTrimL] at h
  exact head_dropWhile (trimRight_get h)

theorem jsTrimL_last {l : List Char} {c : Char}
    (h : (jsTrimL l).get? ((jsTrimL l).length - 1) = some c) :
    isJsSpace c = false := by
  have hlen : (jsTrimL l).length = rtrimLen (l.dropWhile isJsSpace) := by
    rw [jsTrimL, length_trimRight]
  have hne : rtrimLen (l.dropWhile isJsSpace) ≠ 0 := by
    intro h0
    have hzero : (jsTrimL l).length = 0 := by rw [hlen, h0]
    rw [List.get?_eq_none.2 (by omega)] at h
    exact Option.noConfusion h
  obtain ⟨c', hc', hcs⟩ := trimRight_last hne
  have h2 : (jsTrimL l).get? ((jsTrimL l).length - 1) = some c' := by
    rw [hlen]
    exact hc'
  rw [h] at h2
  injection h2 with he
  rwa [he]

theorem jsTrimL_idem (l : List Char) : jsTrimL (jsTrimL l) = jsTrimL l :=
  jsTrimL_eq_self (fun _ h => jsTrimL_head h) (fun _ h => jsTrimL_last h)

theorem jsTrim_idem (s : String) : jsTrim (jsTrim s) = jsTrim s := by
  show String.mk (jsTrimL (jsTrimL s.data)) = String.mk (jsTrimL s.data)
  rw [jsTrimL_idem]

/-! ### Supporting lemmas: substrings -/

theorem occursAt_iff {l p : List Char} {i : Nat} :
    occursAt l i p = true ↔ (l.drop i).take p.length = p := by
  simp [occursAt]

theorem occursAt_len {l p : List Char} {i : Nat}
    (h : occursAt l i p = true) (hp : p ≠ []) : i + p.length ≤ l.length := by
  rw [occursAt_iff] at h
  have hlen := congrArg List.length h
  rw [List.length_take, List.length_drop] at hlen
  rcases Nat.le_total p.length (l.length - i) with hle | hle
  · have hi : i ≤ l.length := by
      by_contra hgt
      have : l.length - i = 0 := by omega
      rw [this] at hle
      have : p.length = 0 := by omega
      exact hp (List.length_eq_zero.1 this)
    omega
  · rw [Nat.min_eq_right hle] at hlen
    have hppos : 0 < p.length := List.length_pos.2 hp
    omega

theorem substrB_of_occursAt {small big : String} {i : Nat}
    (h : occursAt big.data i small.data = true) (hle : i ≤ big.data.length) :
    substrB small big = true :=
  existsIdx_iff.mpr ⟨i, Nat.lt_succ_of_le hle, h⟩

theorem occursAt_trans {a b c : List Char} {i j : Nat}
    (hab : occursAt b i a = true) (hbc : occursAt c j b = true) :
    occursAt c (j + i) a = true := by
  rw [occursAt_iff] at hab hbc ⊢
  have hlen : a.length ≤ b.length - i := by
    have h1 := congrArg List.length hab
    rw [List.length_take, List.length_drop] at h1
    calc a.length = a.length ⊓ (b.length - i) := h1.symm
      _ ≤ b.length - i := Nat.min_le_right _ _
  have key : ((c.drop j).drop i).take a.length = a := by
    have h2 : ((c.drop j).take b.length).drop i = b.drop i := by rw [hbc]
    rw [List.drop_take] at h2
    calc ((c.drop j).drop i).take a.length
        = (((c.drop j).drop i).take (b.length - i)).take a.length := by
          rw [List.take_take, Nat.min_eq_left hlen]
      _ = (b.drop i).take a.length := by rw [h2]
      _ = a := hab
  calc (c.drop (j + i)).take a.length
      = ((c.drop j).drop i).take a.length := by rw [List.drop_drop]
    _ = a := key

theorem occursAt_jsTrimL (l : List Char) :
    occursAt l ((l.takeWhile isJsSpace).length) (jsTrimL l) = true := by
  rw [occursAt_iff]
  have hdrop : l.drop ((l.takeWhile isJsSpace).length) = l.dropWhile isJsSpace :=
    (dropWhile_eq_drop isJsSpace l).symm
  rw [hdrop]
  have hlen : (jsTrimL l).length = rtrimLen (l.dropWhile isJsSpace) := by
    rw [jsTrimL, length_trimRight]
  rw [hlen]
  rfl

theorem occursAt_take {l : List Char} {n : Nat} :
    occursAt l 0 (l.take n) = true := by
  rw [occursAt_iff, List.drop_zero, List.length_take]
  rcases Nat.le_total n l.length with h | h
  · rw [Nat.min_eq_left h]
  · rw [Nat.min_eq_right h, List.take_length, List.take_all_of_le h]

theorem slice_get {l : List Char} {i m j : Nat} (hj : j < m) :
    ((l.drop i).take m).get? j = l.get? (i + j) := by
  rw [List.get?_take hj, List.get?_drop]

theorem slice_length {l : List Char} {i m : Nat} (h : i + m ≤ l.length) :
    ((l.drop i).take m).length = m := by
  rw [List.length_take, List.length_drop]
  omega

/-! ### Supporting lemmas: the city/state matchers -/

theorem upperAt_inv {l : List Char} {j : Nat} (h : upperAt l j = true) :
    ∃ c, l.get? j = some c ∧ 'A' ≤ c ∧ c ≤ 'Z' := by
  unfold upperAt at h
  cases hg : l.get? j with
  | none => rw [hg] at h; simp at h
  | some c =>
    rw [hg] at h
    rw [Bool.and_eq_true, decide_eq_true_eq, decide_eq_true_eq] at h
    exact ⟨c, rfl, h.1, h.2⟩

theorem upper_not_space {c : Char} (hA : 'A' ≤ c) (hZ : c ≤ 'Z') :
    isJsSpace c = false := by
  rcases Bool.eq_false_or_eq_true (isJsSpace c) with h | h
  · exfalso
    simp only [isJsSpace, Bool.or_eq_true, decide_eq_true_eq] at h
    rcases h with ((((((h | h) | h) | h) | h) | h) | h) <;>
      subst h <;> revert hA hZ <;> decide
  · exact h

theorem runLenFrom_get {l : List Char} {i j : Nat} {p : Char → Bool}
    (hj : j < runLenFrom l i p) :
    ∃ c, l.get? (i + j) = some c ∧ p c = true := by
  rw [runLenFrom] at hj
  obtain ⟨c, hc⟩ : ∃ c, ((l.drop i).takeWhile p).get? j = some c :=
    ⟨_, List.get?_eq_get hj⟩
  obtain ⟨hg, hp⟩ := takeWhile_get c hc
  rw [List.get?_drop] at hg
  exact ⟨c, hg, hp⟩

theorem greedyBoundary_inv {l : List Char} {base r k : Nat}
    (h : greedyBoundary l base r = some k) : 1 ≤ k ∧ k ≤ r := by
  induction r with
  | zero => simp [greedyBoundary] at h
  | succ r ih =>
    rw [greedyBoundary] at h
    split at h
    · injection h with hk
      omega
    · have := ih h
      omega

theorem cityStateAt_inv {l : List Char} {i m : Nat}
    (h : cityStateAt l i = some m) :
    5 ≤ m ∧ i + m ≤ l.length ∧
      (∃ c, l.get? i = some c ∧ 'A' ≤ c ∧ c ≤ 'Z') ∧
      (∃ c, l.get? (i + m - 1) = some c ∧ 'A' ≤ c ∧ c ≤ 'Z') := by
  simp only [cityStateAt] at h
  split at h
  case isFalse => exact absurd h (by simp)
  case isTrue h1 =>
    rw [Bool.and_eq_true] at h1
    split at h
    case isFalse => exact absurd h (by simp)
    case isTrue h2 =>
      rw [Bool.and_eq_true, decide_eq_true_eq, decide_eq_true_eq] at h2
      split at h
      case isFalse => exact absurd h (by simp)
      case isTrue h3 =>
        injection h with hm
        subst hm
        rw [Bool.and_eq_true, Bool.and_eq_true] at h3
        obtain ⟨⟨hu2, hu3⟩, _⟩ := h3
        obtain ⟨c3, hg3, hc3⟩ := upperAt_inv hu3
        have hlt : i + 3 + runLenFrom l (i + 1) cityClassChar +
            runLenFrom l (i + 2 + runLenFrom l (i + 1) cityClassChar) isJsSpace
            < l.length := by
          by_contra hge
          rw [List.get?_eq_none.2 (Nat.le_of_not_lt hge)] at hg3
          exact Option.noConfusion hg3
        refine ⟨by omega, by omega, upperAt_inv h1.2, ⟨c3, ?_, hc3⟩⟩
        have heq : i + (4 + runLenFrom l (i + 1) cityClassChar +
            runLenFrom l (i + 2 + runLenFrom l (i + 1) cityClassChar) isJsSpace) - 1
            = i + 3 + runLenFrom l (i + 1) cityClassChar +
              runLenFrom l (i + 2 + runLenFrom l (i + 1) cityClassChar) isJsSpace := by
          omega
        rw [heq]
        exact hg3

theorem stateCityAt_inv {l : List Char} {i m : Nat}
    (h : stateCityAt l i = some m) :
    ∃ w k, m = 4 + w + k ∧ 1 ≤ k ∧ i + m ≤ l.length ∧
      (∃ c, l.get? i = some c ∧ 'A' ≤ c ∧ c ≤ 'Z') ∧
      (∃ c, l.get? (i + 3 + w) = some c ∧ 'A' ≤ c ∧ c ≤ 'Z') := by
  simp only [stateCityAt] at h
  split at h
  case isFalse => exact absurd h (by simp)
  case isTrue h1 =>
    rw [Bool.and_eq_true, Bool.and_eq_true, Bool.and_eq_true] at h1
    obtain ⟨⟨⟨hb, hu0⟩, hu1⟩, _⟩ := h1
    split at h
    case isFalse => exact absurd h (by simp)
    case isTrue h2 =>
      set w := runLenFrom l (i + 3) isJsSpace with hw
      set r := runLenFrom l (i + 4 + w) cityClassChar with hr
      cases hg : greedyBoundary l (i + 4 + w) r with
      | none => rw [hg] at h; exact absurd h (by simp)
      | some k =>
        rw [hg] at h
        injection h with hm
        subst hm
        obtain ⟨hk1, hkr⟩ := greedyBoundary_inv hg
        obtain ⟨c, hgc, hpc⟩ := runLenFrom_get (p := cityClassChar)
          (l := l) (i := i + 4 + w) (j := k - 1) (by omega)
        have hlt : i + 4 + w + (k - 1) < l.length := by
          by_contra hge
          rw [List.get?_eq_none.2 (Nat.le_of_not_lt hge)] at hgc
          exact Option.noConfusion hgc
        exact ⟨w, k, rfl, hk1, by omega, upperAt_inv hu0, upperAt_inv h2⟩

/-! ### Supporting lemmas: properties of the collected hints -/

theorem dropWhile_eq_self_of_get0 {p : Char → Bool} {l : List Char} {c : Char}
    (hg : l.get? 0 = some c) (hc : p c = false) : l.dropWhile p = l := by
  cases l with
  | nil => simp at hg
  | cons d ds =>
    simp at hg
    subst hg
    exact List.dropWhile_cons_of_neg (by simp [hc])

theorem occursAt_slice {l : List Char} {i m : Nat} (h : i + m ≤ l.length) :
    occursAt l i ((l.drop i).take m) = true := by
  rw [occursAt_iff, slice_length h]

theorem jsMatchFirst_inv {matchAt : List Char → Nat → Option Nat}
    {t m0 : String} (h : jsMatchFirst matchAt t = some m0) :
    ∃ i len, matchAt t.data i = some len ∧
      m0 = String.mk ((t.data.drop i).take len) := by
  unfold jsMatchFirst firstMatch at h
  cases hf : (List.range (t.data.length + 1)).findSome?
      (fun i => (matchAt t.data i).map fun m => (i, m)) with
  | none => rw [hf] at h; exact Option.noConfusion h
  | some im =>
    rw [hf] at h
    injection h with hm0
    obtain ⟨i, _, hfi⟩ := List.exists_of_findSome?_eq_some hf
    cases hmi : matchAt t.data i with
    | none => rw [hmi] at hfi; exact Option.noConfusion hfi
    | some len =>
      rw [hmi] at hfi
      injection hfi with him
      exact ⟨i, len, hmi, by rw [← hm0, ← him]⟩

theorem cityHint_props {text m0 : String}
    (hm : jsMatchFirst cityStateAt text = some m0) :
    4 ≤ (jsTrim m0).length ∧ (jsTrim m0).length ≤ text.length ∧
      ∃ i, occursAt text.data i (jsTrim m0).data = true := by
  obtain ⟨i, len, hat, hslice⟩ := jsMatchFirst_inv hm
  obtain ⟨h5, hle, ⟨c0, hc0, hc0A, hc0Z⟩, ⟨c1, hc1, hc1A, hc1Z⟩⟩ :=
    cityStateAt_inv hat
  set slice := (text.data.drop i).take len with hsl
  have hslen : slice.length = len := slice_length hle
  have htrim : jsTrimL slice = slice := by
    refine jsTrimL_eq_self (fun c hc => ?_) (fun c hc => ?_)
    · rw [slice_get (by omega), Nat.add_zero, hc0] at hc
      injection hc with he
      exact he ▸ upper_not_space hc0A hc0Z
    · rw [hslen] at hc
      rw [slice_get (by omega)] at hc
      have : i + (len - 1) = i + len - 1 := by omega
      rw [this, hc1] at hc
      injection hc with he
      exact he ▸ upper_not_space hc1A hc1Z
  have hdata : (jsTrim m0).data = slice := by
    rw [hslice]
    show jsTrimL slice = slice
    exact htrim
  refine ⟨?_, ?_, ⟨i, ?_⟩⟩
  · show (jsTrim m0).data.length ≥ 4
    rw [hdata, hslen]
    omega
  · show (jsTrim m0).data.length ≤ text.data.length
    rw [hdata, hslen]
    omega
  · rw [hdata, hsl]
    exact occursAt_slice hle

theorem stateHint_props {text m0 : String}
    (hm : jsMatchFirst stateCityAt text = some m0) :
    4 ≤ (jsTrim m0).length ∧ (jsTrim m0).length ≤ text.length ∧
      ∃ i, occursAt text.data i (jsTrim m0).data = true := by
  obtain ⟨i, len, hat, hslice⟩ := jsMatchFirst_inv hm
  obtain ⟨w, k, hlen, hk1, hle, ⟨c0, hc0, hc0A, hc0Z⟩, ⟨c1, hc1, hc1A, hc1Z⟩⟩ :=
    stateCityAt_inv hat
  set slice := (text.data.drop i).take len with hsl
  have hslen : slice.length = len := slice_length hle
  have hg0 : slice.get? 0 = some c0 := by
    rw [slice_get (by omega), Nat.add_zero]
    exact hc0
  have hg1 : slice.get? (3 + w) = some c1 := by
    rw [slice_get (by omega)]
    have : i + (3 + w) = i + 3 + w := by omega
    rw [this]
    exact hc1
  have htrim : jsTrimL slice = trimRight slice :=
    congrArg trimRight (dropWhile_eq_self_of_get0 hg0 (upper_not_space hc0A hc0Z))
  have hrt : 4 + w ≤ rtrimLen slice := by
    have := rtrimLen_ge_of_get hg1 (upper_not_space hc1A hc1Z)
    omega
  have hdata : (jsTrim m0).data = trimRight slice := by
    rw [hslice]
    show jsTrimL slice = trimRight slice
    exact htrim
  refine ⟨?_, ?_, ⟨i, ?_⟩⟩
  · show (jsTrim m0).data.length ≥ 4
    rw [hdata, length_trimRight]
    omega
  · show (jsTrim m0).data.length ≤ text.data.length
    rw [hdata, length_trimRight]
    have := rtrimLen_le slice
    omega
  · rw [hdata, trimRight]
    have hocc : occursAt slice 0 (slice.take (rtrimLen slice)) = true :=
      occursAt_take
    have hocc2 : occursAt text.data i slice = true := by
      rw [hsl]
      exact occursAt_slice hle
    have := occursAt_trans hocc hocc2
    simpa using this

/-- Every hint a node contributes is trimmed, 4–100 characters long, and
occurs verbatim inside the node's raw text. -/
theorem nodeHints_props {t h : String} (hmem : h ∈ nodeHints t) :
    jsTrim h = h ∧ 4 ≤ h.length ∧ h.length ≤ 100 ∧
      ∃ i, occursAt t.data i h.data = true := by
  simp only [nodeHints] at hmem
  split at hmem
  case isTrue => simp at hmem
  case isFalse hguard =>
    rw [Bool.not_eq_true, Bool.or_eq_false_iff, Bool.or_eq_false_iff] at hguard
    obtain ⟨⟨g1, g2⟩, g3⟩ := hguard
    have h4 : 4 ≤ (jsTrim t).length := by
      have := of_decide_eq_false g2
      omega
    have h100 : (jsTrim t).length ≤ 100 := by
      have := of_decide_eq_false g3
      omega
    rw [List.mem_append] at hmem
    rcases hmem with hd | hcs
    · have hht : h = jsTrim t := by
        by_cases hdt : descriptorTest (jsTrim t)
        · rw [if_pos hdt] at hd
          simpa using hd
        · rw [if_neg hdt] at hd
          simp at hd
      subst hht
      refine ⟨jsTrim_idem t, h4, h100, ?_⟩
      refine ⟨(t.data.takeWhile isJsSpace).length, ?_⟩
      show occursAt t.data _ (jsTrimL t.data) = true
      exact occursAt_jsTrimL t.data
    · split at hcs
      case isFalse => simp at hcs
      case isTrue =>
        rw [List.mem_append] at hcs
        rcases hcs with hc | hs
        · cases hmc : jsMatchFirst cityStateAt (jsTrim t) with
          | none => rw [hmc] at hc; simp at hc
          | some m0 =>
            rw [hmc] at hc
            simp at hc
            subst hc
            obtain ⟨hge, hle, i, hocc⟩ := cityHint_props hmc
            refine ⟨jsTrim_idem m0, hge, le_trans hle h100, ?_⟩
            obtain ⟨j, hoccT⟩ : ∃ j, occursAt t.data j (jsTrim t).data = true :=
              ⟨_, occursAt_jsTrimL t.data⟩
            exact ⟨j + i, occursAt_trans hocc hoccT⟩
        · cases hms : jsMatchFirst stateCityAt (jsTrim t) with
          | none => rw [hms] at hs; simp at hs
          | some m0 =>
            rw [hms] at hs
            simp at hs
            subst hs
            obtain ⟨hge, hle, i, hocc⟩ := stateHint_props hms
            refine ⟨jsTrim_idem m0, hge, le_trans hle h100, ?_⟩
            obtain ⟨j, hoccT⟩ : ∃ j, occursAt t.data j (jsTrim t).data = true :=
              ⟨_, occursAt_jsTrimL t.data⟩
            exact ⟨j + i, occursAt_trans hocc hoccT⟩

theorem nodeHints_len (t : String) : (nodeHints t).length ≤ 3 := by
  simp only [nodeHints]
  split
  · simp
  · rw [List.length_append]
    have l1 : (if descriptorTest (jsTrim t) = true then [jsTrim t] else []).length ≤ 1 := by
      split <;> simp
    have l2 : (if (jsTrim t).data.contains ',' = true then
        ((jsMatchFirst cityStateAt (jsTrim t)).map jsTrim).toList ++
          ((jsMatchFirst stateCityAt (jsTrim t)).map jsTrim).toList
        else []).length ≤ 2 := by
      split
      · rw [List.length_append]
        have o1 : ((jsMatchFirst cityStateAt (jsTrim t)).map jsTrim).toList.length ≤ 1 := by
          cases jsMatchFirst cityStateAt (jsTrim t) <;> simp
        have o2 : ((jsMatchFirst stateCityAt (jsTrim t)).map jsTrim).toList.length ≤ 1 := by
          cases jsMatchFirst stateCityAt (jsTrim t) <;> simp
        omega
      · simp
    omega

theorem hintStep_eq (s : List String) (t : String) :
    hintStep s t = addAll s (nodeHints t) := by
  simp only [hintStep, nodeHints]
  split
  · rfl
  · by_cases hd : descriptorTest (jsTrim t) = true <;>
    by_cases hc : ',' ∈ (jsTrim t).data <;>
    cases hmc : jsMatchFirst cityStateAt (jsTrim t) <;>
    cases hms : jsMatchFirst stateCityAt (jsTrim t) <;>
    simp [hd, hc, hmc, hms, addAll_append, addAll]

theorem foldl_hintStep (nodes : List String) :
    ∀ s, nodes.foldl hintStep s = addAll s (nodes.flatMap nodeHints) := by
  induction nodes with
  | nil => intro s; rfl
  | cons n ns ih =>
    intro s
    rw [List.foldl_cons, ih, List.flatMap_cons, addAll_append, hintStep_eq]

theorem extractLocationHints_eq (nodes : List String) :
    extractLocationHints nodes = dedupFirst (nodes.flatMap nodeHints) := by
  rw [extractLocationHints, foldl_hintStep, addAll_nil_eq]

/-! ### Supporting lemmas: characterizations of the remote/JS scanners -/

theorem isWordAt_false {l : List Char} {j : Nat} (h : isWordAt l j = false) :
    ∀ c, l.get? j = some c → isWordChar c = false := by
  intro c hg
  unfold isWordAt at h
  rw [hg] at h
  exact h

theorem remoteWordMatch_iff (t : String) :
    remoteWordMatch t = true ↔ WholeWordRemote t := by
  rw [remoteWordMatch, wordMatchCI, existsIdx_iff]
  constructor
  · rintro ⟨i, _, hf⟩
    rw [Bool.and_eq_true, Bool.and_eq_true] at hf
    exact ⟨i, hf.1.1, hf.1.2, hf.2⟩
  · rintro ⟨i, hb, hm, hb2⟩
    have hm' : matchesAtCI t.data i ('r' :: "emote".data) = true := hm
    refine ⟨i, Nat.lt_succ_of_lt (matchesAtCI_bound hm'), ?_⟩
    rw [Bool.and_eq_true, Bool.and_eq_true]
    exact ⟨⟨hb, hm⟩, hb2⟩

theorem negativeRemoteMatch_iff (t : String) :
    negativeRemoteMatch t = true ↔ NegatedRemote t := by
  rw [negativeRemoteMatch, existsIdx_iff]
  simp only [Bool.and_eq_true, List.any_eq_true, Bool.or_eq_true]
  constructor
  · rintro ⟨i, -, hb, w, hw, hm, htail⟩
    refine ⟨i, w, hw, hb, hm, ?_⟩
    tauto
  · rintro ⟨i, w, hw, hb, hm, htail⟩
    have hbound : i < t.data.length + 1 := by
      have hw' : w = "no" ∨ w = "not" ∨ w = "non" := by simpa using hw
      have hne : w.data ≠ [] := by
        rcases hw' with h | h | h <;> subst h <;> decide
      cases hd : w.data with
      | nil => exact absurd hd hne
      | cons c cs =>
        rw [hd] at hm
        exact Nat.lt_succ_of_lt (matchesAtCI_bound hm)
    refine ⟨i, hbound, hb, w, hw, hm, ?_⟩
    tauto

theorem jsBareAlt_iff (t : String) :
    jsBareAlt t = true ↔ BareJsToken t := by
  rw [jsBareAlt, existsIdx_iff]
  constructor
  · rintro ⟨i, _, hf⟩
    rw [Bool.and_eq_true, Bool.and_eq_true] at hf
    obtain ⟨⟨hleft, hm⟩, hright⟩ := hf
    refine ⟨i, hm, ?_, ?_⟩
    · by_cases hi : i = 0
      · exact Or.inl hi
      · refine Or.inr fun c hg => ?_
        rw [if_neg hi, hg] at hleft
        rw [Bool.not_eq_true'] at hleft
        exact hleft
    · rw [Bool.not_eq_true'] at hright
      exact isWordAt_false hright
  · rintro ⟨i, hm, hleft, hright⟩
    have hm' : matchesAtCI t.data i ('j' :: "s".data) = true := hm
    refine ⟨i, Nat.lt_succ_of_lt (matchesAtCI_bound hm'), ?_⟩
    rw [Bool.and_eq_true, Bool.and_eq_true]
    refine ⟨⟨?_, hm⟩, ?_⟩
    · by_cases hi : i = 0
      · rw [if_pos hi]
      · rw [if_neg hi]
        cases hg : t.data.get? (i - 1) with
        | none => rfl
        | some c =>
          rcases hleft with h | h
          · exact absurd h hi
          · rw [Bool.not_eq_true']
            exact h c hg
    · rw [Bool.not_eq_true']
      unfold isWordAt
      cases hg : t.data.get? (i + 2) with
      | none => rfl
      | some c => exact hright c hg

theorem notRemote_ne_remote (hints : List String) :
    (if hints = [] then "Not Remote"
      else "Not Remote" ++ "\n" ++ String.intercalate " / " hints) ≠ "Remote" := by
  split
  · decide
  · intro heq
    have hlen := congrArg String.length heq
    rw [String.length_append, String.length_append] at hlen
    have h10 : ("Not Remote" : String).length = 10 := rfl
    have hnl : ("\n" : String).length = 1 := rfl
    have h6 : ("Remote" : String).length = 6 := rfl
    rw [h10, hnl, h6] at hlen
    omega

theorem strLenPos {s : String} (h : s ≠ "") : 0 < s.length := by
  rcases s with ⟨data⟩
  show 0 < data.length
  apply List.length_pos.2
  intro hd
  exact h (by rw [hd])

/-! ## The claims -/

/-- C1: with the lexicon label `JavaScript`, a blob containing only
`text/javascript` or only `application/javascript` yields no match, a blob
containing `Must know JavaScript.` yields the match, and a blob containing
`NestJS` alone yields no match (in particular none from the bare-JS
alternative). -/
theorem c1_javascript_cases :
    collectKeywords none [] [JsVal.str "JavaScript"] "text/javascript" "" "" = [] ∧
    collectKeywords none [] [JsVal.str "JavaScript"] "application/javascript" "" ""
      = [] ∧
    collectKeywords none [] [JsVal.str "JavaScript"] "Must know JavaScript." "" ""
      = ["JavaScript"] ∧
    collectKeywords none [] [JsVal.str "JavaScript"] "NestJS" "" "" = [] :=
  ⟨rfl, rfl, rfl, rfl⟩

/-- C2: with no meta keywords and no `article:tag` entries, the lexicon
scan of `collectKeywords` returns exactly the first-occurrence
de-duplication of the labels whose pattern matches: a subset of the
lexicon (the original labels, never matched substrings), without
duplicates, ordered by first occurrence in the lexicon. -/
theorem c2_lexicon_scan_shape (L : List JsVal)
    (pageText bodyText scriptText : String) :
    collectKeywords none [] L pageText bodyText scriptText
        = dedupFirst ((L.filterMap JsVal.getStr).filter
            (stackKeep (rawTextOf pageText bodyText scriptText)))
      ∧ (∀ x, x ∈ collectKeywords none [] L pageText bodyText scriptText →
          JsVal.str x ∈ L)
      ∧ (collectKeywords none [] L pageText bodyText scriptText).Nodup
      ∧ (collectKeywords none [] L pageText bodyText scriptText).Sublist
          (dedupFirst (L.filterMap JsVal.getStr)) := by
  have hch := collectKeywords_none_eq L pageText bodyText scriptText
  refine ⟨hch, ?_, ?_, ?_⟩
  · intro x hx
    rw [hch, mem_dedupFirst, List.mem_filter] at hx
    obtain ⟨v, hvL, hv⟩ := List.mem_filterMap.1 hx.1
    cases v with
    | str s =>
      have hs : s = x := by simpa [JsVal.getStr] using hv
      exact hs ▸ hvL
    | nonStr => simp [JsVal.getStr] at hv
  · rw [hch]
    exact nodup_dedupFirst _
  · rw [hch, dedupFirst_filter]
    exact List.filter_sublist _

/-- C3: the location classifier answers `Remote` exactly when the blob has
a case-insensitive whole-word `remote` and no occurrence of the negation
pattern (`no`/`not`/`non`, optional hyphen or whitespace, `remote`); in
particular `This is a non-remote role` is classified `Not Remote`. -/
theorem c3_location_classifier (t : String) (nodes : List String) :
    (locationOf t nodes = "Remote" ↔ WholeWordRemote t ∧ ¬NegatedRemote t) ∧
    locationOf "This is a non-remote role" [] = "Not Remote" := by
  constructor
  · simp only [locationOf]
    split
    case isTrue hcond =>
      rw [Bool.and_eq_true, Bool.not_eq_true'] at hcond
      constructor
      · intro _
        refine ⟨(remoteWordMatch_iff t).1 hcond.1, fun hneg => ?_⟩
        rw [(negativeRemoteMatch_iff t).2 hneg] at hcond
        exact absurd hcond.2 (by decide)
      · intro _
        rfl
    case isFalse hcond =>
      constructor
      · intro h
        exact absurd h (notRemote_ne_remote _)
      · rintro ⟨hw, hn⟩
        exfalso
        apply hcond
        rw [Bool.and_eq_true, Bool.not_eq_true']
        refine ⟨(remoteWordMatch_iff t).2 hw, ?_⟩
        rcases Bool.eq_false_or_eq_true (negativeRemoteMatch t) with h | h
        · exact absurd ((negativeRemoteMatch_iff t).1 h) hn
        · exact h
  · rfl

/-- C4: the claim (and the spec) say the Node override applies to the
labels `Node` and `Node.js`; in the code the selection test is the regex
literal `/^Node(?:\\.js)?$/i`, in which `\\` matches a literal backslash,
so `Node.js` does not pass it and falls back to the default pattern
`\bNode\.js\b` — a blob with a bare `Node` then yields no match for the
label `Node.js`, while the label `Node` does get the override. -/
theorem c4_node_override_gap :
    nodeLabelTest "Node" = true ∧
    nodeLabelTest "Node.js" = false ∧
    collectKeywords none [] [JsVal.str "Node"] "Requires NodeJS experience" "" ""
      = ["Node"] ∧
    collectKeywords none [] [JsVal.str "Node.js"] "Requires Node experience" "" ""
      = [] :=
  ⟨rfl, rfl, rfl, rfl⟩

/-- C5 counterexample: in the blob `JS.` every occurrence of `JS` is
immediately followed by a dot, yet the matcher still reports
`JavaScript` — the bare-JS alternative only restricts the characters
before the token, not the dot/slash/quote/hyphen after it. -/
theorem c5_counterexample :
    collectKeywords none [] [JsVal.str "JavaScript"] "JS." "" ""
      = ["JavaScript"] :=
  rfl

/-- C5 (amended): the bare-JS alternative fires exactly on a
case-insensitive `JS` whose preceding character is not a word character,
dot, slash, quote or hyphen and whose following character is not a word
character; consequently a blob in which every occurrence of `JS` is
immediately preceded by a dot or slash yields no match from this
alternative. -/
theorem c5_bare_js_amended :
    (∀ t : String, jsBareAlt t = true ↔ BareJsToken t) ∧
    (∀ t : String,
      (∀ i, i < t.data.length → matchesAtCI t.data i "js".data = true →
        1 ≤ i ∧ (t.data.get? (i - 1) = some '.' ∨ t.data.get? (i - 1) = some '/')) →
      jsBareAlt t = false) := by
  refine ⟨jsBareAlt_iff, fun t hyp => ?_⟩
  rcases Bool.eq_false_or_eq_true (jsBareAlt t) with h | h
  · exfalso
    obtain ⟨i, hm, hleft, -⟩ := (jsBareAlt_iff t).1 h
    have hm' : matchesAtCI t.data i ('j' :: "s".data) = true := hm
    obtain ⟨h1, hdot⟩ := hyp i (matchesAtCI_bound hm') hm
    rcases hleft with h0 | hall
    · omega
    · rcases hdot with hg | hg
      · have := hall '.' hg
        simp [jsLeftClass] at this
      · have := hall '/' hg
        simp [jsLeftClass] at this
  · exact h

/-- C5 witness: in `.js` the only `JS` token is preceded by a dot, so the
bare-JS alternative does not fire. -/
theorem c5_bare_js_amended_witness : jsBareAlt ".js" = false :=
  c5_bare_js_amended.2 ".js" (by decide)

/-- C6 counterexample: a whitespace-only `<h1>` together with a non-empty
`og:title` yields the placeholder, not the trimmed `og:title` the claim
promises — the non-emptiness test of `pickFirst` runs before trimming. -/
theorem c6_counterexample :
    titleOf "   " (some "Engineer") "" = "Untitled role" ∧
    titleOf "   " (some "Engineer") "" ≠ "Engineer" := by
  constructor
  · rfl
  · decide

/-- C6 (amended): title extraction always returns a non-empty value; the
candidates are tested for non-emptiness before trimming, so the first
candidate with positive untrimmed length is selected and trimmed, with
`Untitled role` returned when no candidate qualifies or the selected one
trims to empty. -/
theorem c6_title_amended :
    (∀ (h1 pg : String) (og : Option String), titleOf h1 og pg ≠ "") ∧
    (∀ (h1 pg : String) (og : Option String), h1 ≠ "" →
      titleOf h1 og pg = jsOr (jsTrim h1) "Untitled role") ∧
    (∀ og pg : String, og ≠ "" →
      titleOf "" (some og) pg = jsOr (jsTrim og) "Untitled role") ∧
    (∀ pg : String, titleOf "" none pg = jsOr (jsTrim pg) "Untitled role" ∧
      titleOf "" (some "") pg = jsOr (jsTrim pg) "Untitled role") := by
  have hpredpos : ∀ s : String, s ≠ "" → pickPred (some s) = true := by
    intro s hs
    show decide (0 < s.length) = true
    exact decide_eq_true (strLenPos hs)
  have hpredneg : ¬pickPred (some "") = true := by decide
  have hprednone : ¬pickPred none = true := by decide
  refine ⟨?_, ?_, ?_, ?_⟩
  · intro h1 pg og
    rw [titleOf, jsOr]
    split
    · decide
    · assumption
  · intro h1 pg og hne
    rw [titleOf, pickFirst, List.find?_cons_of_pos _ (hpredpos h1 hne)]
    rfl
  · intro og pg hne
    rw [titleOf, pickFirst, List.find?_cons_of_neg _ hpredneg,
      List.find?_cons_of_pos _ (hpredpos og hne)]
    rfl
  · intro pg
    by_cases hpg : pg = ""
    · subst hpg
      exact ⟨rfl, rfl⟩
    · constructor
      · rw [titleOf, pickFirst, List.find?_cons_of_neg _ hpredneg,
          List.find?_cons_of_neg _ hprednone,
          List.find?_cons_of_pos _ (hpredpos pg hpg)]
        rfl
      · rw [titleOf, pickFirst, List.find?_cons_of_neg _ hpredneg,
          List.find?_cons_of_neg _ hpredneg,
          List.find?_cons_of_pos _ (hpredpos pg hpg)]
        rfl

/-- C6 witness: a padded `<h1>` is selected and trimmed. -/
theorem c6_title_amended_witness : titleOf " Engineer " none "" = "Engineer" := by
  rw [c6_title_amended.2.1 " Engineer " "" none (by decide)]
  rfl

/-- C7: every collected location hint is its own trim, is 4–100
characters long, and occurs verbatim in the page text whenever every
scanned node's text does; the hint list is duplicate-free, equals the
first-occurrence de-duplication of the per-node hint stream in document
order, and every node contributes at most one hint of each of the three
kinds (descriptor, City-ST, ST-City). -/
theorem c7_hint_invariants (nodes : List String) (pageText : String)
    (hsub : ∀ t, t ∈ nodes → substrB t pageText = true) :
    (∀ h, h ∈ extractLocationHints nodes →
      jsTrim h = h ∧ 4 ≤ h.length ∧ h.length ≤ 100 ∧ substrB h pageText = true) ∧
    (extractLocationHints nodes).Nodup ∧
    extractLocationHints nodes = dedupFirst (nodes.flatMap nodeHints) ∧
    (∀ t, (nodeHints t).length ≤ 3) := by
  refine ⟨?_, ?_, extractLocationHints_eq nodes, fun t => nodeHints_len t⟩
  · intro h hmem
    rw [extractLocationHints_eq, mem_dedupFirst, List.mem_flatMap] at hmem
    obtain ⟨t, htn, hh⟩ := hmem
    obtain ⟨htrim, h4, h100, i, hocc⟩ := nodeHints_props hh
    refine ⟨htrim, h4, h100, ?_⟩
    obtain ⟨j, -, hoccj⟩ := existsIdx_iff.1 (hsub t htn)
    have hchain := occursAt_trans hocc hoccj
    have hne : h.data ≠ [] := by
      intro hnil
      have : h.length = 0 := by simp [String.length, hnil]
      omega
    have hlen := occursAt_len hchain hne
    exact substrB_of_occursAt hchain (by omega)
  · rw [extractLocationHints_eq]
    exact nodup_dedupFirst _

/-- C7 witness at a concrete document. -/
theorem c7_hint_invariants_witness :
    (extractLocationHints ["Hybrid OK"]).Nodup :=
  (c7_hint_invariants ["Hybrid OK"] "xx Hybrid OK yy" (by decide)).2.1

/-- C8: replacing the lexicon with an already-clean payload (non-empty,
trimmed, duplicate-free, no empty entries) succeeds, stores exactly that
payload, and a subsequent read returns it unchanged. -/
theorem c8_replace_load_roundtrip (X st : List String) (fsOk : Bool)
    (hne : X ≠ []) (hclean : ∀ s, s ∈ X → s ≠ "" ∧ jsTrim s = s)
    (hnd : X.Nodup) :
    putTechStacks (some (X.map JsVal.str)) st fsOk
        = (X, PutResp.ok X, writeTechStacksToFile fsOk) ∧
    getTechStacks (putTechStacks (some (X.map JsVal.str)) st fsOk).1 = X := by
  have hc : cleanStacks (X.map JsVal.str) = X := by
    rw [cleanStacks, List.map_map]
    have hmap : X.map ((fun e : JsVal =>
        match e with
        | .str s => jsTrim s
        | .nonStr => "") ∘ JsVal.str) = X := by
      calc X.map ((fun e : JsVal =>
              match e with
              | .str s => jsTrim s
              | .nonStr => "") ∘ JsVal.str)
          = X.map jsTrim := List.map_congr_left fun s _ => rfl
        _ = X.map id := List.map_congr_left fun s hs => (hclean s hs).2
        _ = X := List.map_id X
    rw [hmap]
    rw [List.filter_eq_self.2 fun s hs => by
      simpa using (hclean s hs).1]
    exact dedupFirst_eq_self hnd
  have hput : putTechStacks (some (X.map JsVal.str)) st fsOk
      = (X, PutResp.ok X, writeTechStacksToFile fsOk) := by
    rw [putTechStacks, hc, if_neg hne]
  exact ⟨hput, by rw [hput]; rfl⟩

/-- C8 witness at a concrete payload. -/
theorem c8_replace_load_roundtrip_witness :
    putTechStacks (some [JsVal.str "React", JsVal.str "Vue"]) ["Old"] true
      = (["React", "Vue"], PutResp.ok ["React", "Vue"], false) :=
  (c8_replace_load_roundtrip ["React", "Vue"] ["Old"] true (by decide)
    (by decide) (by decide)).1

/-- C9 counterexample: a persisted empty array is returned as the empty
lexicon, not replaced by the defaults. -/
theorem c9_counterexample :
    readTechStacksFromFile (some (ParsedJson.arr [])) = [] ∧
    readTechStacksFromFile (some (ParsedJson.arr []))
      ≠ DEFAULT_TECH_STACKS.map JsVal.str := by
  exact ⟨rfl, by decide⟩

/-- C9 (amended): the load falls back to the built-in defaults exactly
when the file is unavailable/unparseable or does not hold a JSON array;
any persisted array — the empty one included — is returned as-is. -/
theorem c9_load_defaults_amended :
    readTechStacksFromFile none = DEFAULT_TECH_STACKS.map JsVal.str ∧
    readTechStacksFromFile (some ParsedJson.nonArray)
      = DEFAULT_TECH_STACKS.map JsVal.str ∧
    ∀ xs, readTechStacksFromFile (some (ParsedJson.arr xs)) = xs :=
  ⟨rfl, rfl, fun _ => rfl⟩

/-- C10: when persisting fails, the replace operation still updates the
in-memory lexicon to the cleaned set and returns the success response;
the failure is only recorded in the log flag, and the outcome is the same
as with a successful write. -/
theorem c10_persist_failure_only_logged (incoming : List JsVal)
    (st : List String) (h : cleanStacks incoming ≠ []) :
    (putTechStacks (some incoming) st false).1 = cleanStacks incoming ∧
    (putTechStacks (some incoming) st false).2.1
      = PutResp.ok (cleanStacks incoming) ∧
    (putTechStacks (some incoming) st false).2.2 = true ∧
    (putTechStacks (some incoming) st false).1
      = (putTechStacks (some incoming) st true).1 ∧
    (putTechStacks (some incoming) st false).2.1
      = (putTechStacks (some incoming) st true).2.1 := by
  simp [putTechStacks, if_neg h, writeTechStacksToFile]

/-- C10 witness at a concrete payload. -/
theorem c10_persist_failure_only_logged_witness :
    (putTechStacks (some [JsVal.str "Go"]) ["Old"] false).2.2 = true :=
  (c10_persist_failure_only_logged [JsVal.str "Go"] ["Old"] (by decide)).2.2.1

end JD
